import Mathlib

/-!
# go-coalescer: a TTL result cache with a double staleness check

Sequential model of `pkg/coalescence/coalescer.go`.

* Clock readings and durations are integers (nanoseconds). `time.Now` is an
  oracle `clk : Nat → Int`: the `i`-th reading taken by the program returns
  `clk i`; the world counts the readings taken so far. Whatever time passes
  between two statements (the operation running, a caller sleeping between two
  calls) shows as the difference of two consecutive readings.
  `time.Since t` is the difference between a fresh reading and `t`; readings
  of Go's monotonic clock are non-negative 64-bit counts, so the difference
  of two of them is itself a 64-bit duration and nothing wraps or saturates.
* An operation is a closure `func() (interface{}, error)`: it is a function of
  the state it captures (`σ`), returning a value, an optional error (`none` is
  Go's `nil`) and the new captured state.
* A `*content` is an `Option (content α ε)`, `none` being the nil pointer, and
  the Go map is a function from keys to such pointers (a missing key reads as
  nil, as `c.cache[key]` does).
* The `sync.RWMutex` is not represented: in a sequential execution every
  acquisition succeeds at once and the deferred unlock releases it before
  the method returns.
* The world carries a trace of the clock readings and operation invocations
  performed, newest first, so that "invoked exactly once" and "read after the
  operation returned" are statements about the execution.
-/

namespace Coalescence

/-- Go struct `content`: one cached result. -/
structure content (α ε : Type) where
  response : α
  err : Option ε
  cached : Int
  expire : Int

/-- Go struct `coalescer` (the map; see the header for the lock). -/
structure coalescer (α ε : Type) where
  cache : String → Option (content α ε)

/-- What an execution does besides touching the map: it reads the clock
(`clock i` is the `i`-th reading) or it invokes the operation it was given. -/
inductive Event where
  | clock (i : Nat)
  | invoke
deriving DecidableEq

/-- State of a sequential execution: the coalescer, the number of clock
readings taken so far, the state captured by the operations, and the trace of
events (newest first). -/
structure World (α ε σ : Type) where
  c : coalescer α ε
  reads : Nat
  env : σ
  trace : List Event

/-- A Go closure `func() (interface{}, error)` over captured state `σ`. -/
abbrev Operation (α ε σ : Type) := σ → (α × Option ε) × σ

/-- Go `NewCoalescer`: `cache: make(map[string]*content)`. -/
def NewCoalescer {α ε : Type} : coalescer α ε :=
  { cache := fun _ => none }

/-- Go `time.Now()`: the next reading of the clock. -/
def timeNow {α ε σ : Type} (clk : Nat → Int) (w : World α ε σ) : Int × World α ε σ :=
  (clk w.reads, { w with reads := w.reads + 1, trace := Event.clock w.reads :: w.trace })

/-- Go `time.Since(t)`: `time.Now().Sub(t)`. -/
def timeSince {α ε σ : Type} (clk : Nat → Int) (t : Int) (w : World α ε σ) :
    Int × World α ε σ :=
  let r := timeNow clk w
  (r.1 - t, r.2)

/-- Go `invalidCachedValue`: `cont == nil || time.Since(cont.cached) > cont.expire`.
The clock is read only when `cont` is not nil (short-circuit `||`). -/
def invalidCachedValue {α ε σ : Type} (clk : Nat → Int) (cont : Option (content α ε))
    (w : World α ε σ) : Bool × World α ε σ :=
  match cont with
  | none => (true, w)
  | some e =>
    let r := timeSince clk e.cached w
    (decide (r.1 > e.expire), r.2)

/-- Go `(*coalescer).get`: `return c.cache[key]`. -/
def coalescer.get {α ε σ : Type} (key : String) (w : World α ε σ) : Option (content α ε) :=
  w.c.cache key

/-- Go `(*coalescer).set`: read the map again, check again, and only if the
entry is still invalid run the operation, stamp the result with `time.Now()`
and store it under `key`. -/
def coalescer.set {α ε σ : Type} (clk : Nat → Int) (operation : Operation α ε σ)
    (key : String) (expire : Int) (w : World α ε σ) :
    Option (content α ε) × World α ε σ :=
  let cont := w.c.cache key
  let r := invalidCachedValue clk cont w
  if r.1 then
    let o := operation r.2.env
    let w1 : World α ε σ := { r.2 with env := o.2, trace := Event.invoke :: r.2.trace }
    let t := timeNow clk w1
    let cont1 : content α ε :=
      { response := o.1.1, err := o.1.2, cached := t.1, expire := expire }
    (some cont1,
      { t.2 with c := { cache := Function.update t.2.c.cache key (some cont1) } })
  else
    (cont, r.2)

/-- Go `(*coalescer).Do`. The result is `none` if `cont` were nil at
`cont.response` (a nil dereference), `some (response, err)` otherwise. -/
def coalescer.Do {α ε σ : Type} (clk : Nat → Int) (operation : Operation α ε σ)
    (key : String) (expire : Int) (w : World α ε σ) :
    Option (α × Option ε) × World α ε σ :=
  let cont := coalescer.get key w
  let r := invalidCachedValue clk cont w
  let s := if r.1 then coalescer.set clk operation key expire r.2 else (cont, r.2)
  (s.1.map (fun e => (e.response, e.err)), s.2)

/-- Number of operation invocations recorded in a world's trace. -/
def invocations {α ε σ : Type} (w : World α ε σ) : Nat :=
  w.trace.count Event.invoke

/-- World after one clock reading. -/
def afterRead {α ε σ : Type} (w : World α ε σ) : World α ε σ :=
  { w with reads := w.reads + 1, trace := Event.clock w.reads :: w.trace }

/-- World after a recomputation that starts in `w`: the operation runs on the
captured state, then the clock is read, then the stamped result is stored. -/
def afterCompute {α ε σ : Type} (clk : Nat → Int) (operation : Operation α ε σ)
    (key : String) (expire : Int) (w : World α ε σ) : World α ε σ :=
  { c := { cache := Function.update w.c.cache key
            (some { response := (operation w.env).1.1, err := (operation w.env).1.2,
                    cached := clk w.reads, expire := expire }) },
    reads := w.reads + 1,
    env := (operation w.env).2,
    trace := Event.clock w.reads :: Event.invoke :: w.trace }

/-- A world holding a coalescer just returned by `NewCoalescer`, after `reads`
clock readings by earlier code, with captured state `env`. -/
def freshWorld {α ε σ : Type} (reads : Nat) (env : σ) : World α ε σ :=
  { c := NewCoalescer, reads := reads, env := env, trace := [] }

/-- One call `Do(operation, key, expire)` of a sequential client. -/
structure Call (α ε σ : Type) where
  operation : Operation α ε σ
  key : String
  expire : Int

/-- Record of one executed call: the call, the world it started in, what it
returned and the world it left. -/
structure Step (α ε σ : Type) where
  call : Call α ε σ
  start : World α ε σ
  result : Option (α × Option ε)
  finish : World α ε σ

/-- Run a list of `Do` calls one after the other, each starting in the world
the previous one left. -/
def runCalls {α ε σ : Type} (clk : Nat → Int) :
    List (Call α ε σ) → World α ε σ → List (Step α ε σ)
  | [], _ => []
  | c :: cs, w =>
    let r := coalescer.Do clk c.operation c.key c.expire w
    { call := c, start := w, result := r.1, finish := r.2 } :: runCalls clk cs r.2

/-- World left by a list of `Do` calls run one after the other. -/
def lastWorld {α ε σ : Type} (clk : Nat → Int) :
    List (Call α ε σ) → World α ε σ → World α ε σ
  | [], w => w
  | c :: cs, w => lastWorld clk cs (coalescer.Do clk c.operation c.key c.expire w).2

/-- The operation of the tests: `timesInvoked++; return timesInvoked, nil`. -/
def counterOperation (ε : Type) : Operation Int ε Int :=
  fun timesInvoked => ((timesInvoked + 1, none), timesInvoked + 1)

/-- Calls of the tests: the counter operation under one key, one call per
listed ttl. -/
def counterCalls (ε : Type) (key : String) (ttls : List Int) : List (Call Int ε Int) :=
  ttls.map (fun t => { operation := counterOperation ε, key := key, expire := t })

/-- Worlds a sequential client can be in: it starts from a fresh coalescer,
calls `Do`, and between calls other code may read the clock and change the
captured state. -/
inductive Reachable {α ε σ : Type} (clk : Nat → Int) : World α ε σ → Prop where
  | fresh (reads : Nat) (env : σ) : Reachable clk (freshWorld reads env)
  | call (w : World α ε σ) (operation : Operation α ε σ) (key : String) (expire : Int) :
      Reachable clk w → Reachable clk (coalescer.Do clk operation key expire w).2
  | idle (w : World α ε σ) (n : Nat) (f : σ → σ) :
      Reachable clk w → Reachable clk { w with reads := w.reads + n, env := f w.env }

/-- A clock that advances by one nanosecond per reading. -/
def unitClock : Nat → Int := fun n => n

/-- A coarse clock whose successive readings are equal. -/
def stoppedClock : Nat → Int := fun _ => 0

/-- A clock with a long pause between its second and third readings. -/
def jumpClock : Nat → Int := fun n => if n < 2 then n else 100 + n

/-- An operation that fails: it counts its invocations and returns an error. -/
def failingOperation : Operation Int String Int :=
  fun n => ((0, some "boom"), n + 1)

/-- The single-check version of `Do` that `Do` is compared with: look the key
up once; if the entry is absent or stale, invoke the operation, stamp the
result with the clock and store it; otherwise return the entry found. -/
def singleCheckDo {α ε σ : Type} (clk : Nat → Int) (operation : Operation α ε σ)
    (key : String) (expire : Int) (w : World α ε σ) :
    Option (α × Option ε) × World α ε σ :=
  let cont := w.c.cache key
  let r := invalidCachedValue clk cont w
  if r.1 then
    let o := operation r.2.env
    let w1 : World α ε σ := { r.2 with env := o.2, trace := Event.invoke :: r.2.trace }
    let t := timeNow clk w1
    let cont1 : content α ε :=
      { response := o.1.1, err := o.1.2, cached := t.1, expire := expire }
    (some (cont1.response, cont1.err),
      { t.2 with c := { cache := Function.update t.2.c.cache key (some cont1) } })
  else
    (cont.map (fun e => (e.response, e.err)), r.2)

/-- The clock `clk` without its `i`-th reading: what a program reads that
takes every reading of `clk` except that one. -/
def dropReading (clk : Nat → Int) (i : Nat) : Nat → Int :=
  fun n => if n < i then clk n else clk (n + 1)

/-- A world whose map holds one entry, under key "a": response 7, no error,
stamped 0, expire 5; one clock reading taken so far. -/
def oneEntryWorld : World Int String Int :=
  { c := { cache := Function.update (fun _ => none) "a"
            (some { response := 7, err := none, cached := 0, expire := 5 }) },
    reads := 1, env := 0, trace := [] }

/-! ## The four paths through `Do` -/

section Paths

variable {α ε σ : Type}

theorem set_absent (clk : Nat → Int) (operation : Operation α ε σ) (key : String) (expire : Int)
    (w : World α ε σ) (h : w.c.cache key = none) :
    coalescer.set clk operation key expire w =
      (some { response := (operation w.env).1.1, err := (operation w.env).1.2,
              cached := clk w.reads, expire := expire },
       afterCompute clk operation key expire w) := by
  simp [coalescer.set, invalidCachedValue, h, timeNow, afterCompute]

theorem Do_absent (clk : Nat → Int) (operation : Operation α ε σ) (key : String) (expire : Int)
    (w : World α ε σ) (h : w.c.cache key = none) :
    coalescer.Do clk operation key expire w =
      (some (operation w.env).1, afterCompute clk operation key expire w) := by
  simp [coalescer.Do, coalescer.get, invalidCachedValue, h, set_absent]

theorem Do_hit (clk : Nat → Int) (operation : Operation α ε σ) (key : String) (expire : Int)
    (w : World α ε σ) (e : content α ε) (h : w.c.cache key = some e)
    (hv : clk w.reads - e.cached ≤ e.expire) :
    coalescer.Do clk operation key expire w = (some (e.response, e.err), afterRead w) := by
  simp [coalescer.Do, coalescer.get, invalidCachedValue, h, timeSince, timeNow, afterRead,
    not_lt.mpr hv]

theorem Do_stale (clk : Nat → Int) (operation : Operation α ε σ) (key : String) (expire : Int)
    (w : World α ε σ) (e : content α ε) (h : w.c.cache key = some e)
    (h1 : clk w.reads - e.cached > e.expire) (h2 : clk (w.reads + 1) - e.cached > e.expire) :
    coalescer.Do clk operation key expire w =
      (some (operation w.env).1,
       afterCompute clk operation key expire (afterRead (afterRead w))) := by
  simp [coalescer.Do, coalescer.get, coalescer.set, invalidCachedValue, h, timeSince, timeNow,
    afterRead, afterCompute, gt_iff_lt.mp h1, gt_iff_lt.mp h2]

theorem Do_revalidated (clk : Nat → Int) (operation : Operation α ε σ) (key : String)
    (expire : Int) (w : World α ε σ) (e : content α ε) (h : w.c.cache key = some e)
    (h1 : clk w.reads - e.cached > e.expire) (h2 : clk (w.reads + 1) - e.cached ≤ e.expire) :
    coalescer.Do clk operation key expire w =
      (some (e.response, e.err), afterRead (afterRead w)) := by
  simp [coalescer.Do, coalescer.get, coalescer.set, invalidCachedValue, h, timeSince, timeNow,
    afterRead, gt_iff_lt.mp h1, not_lt.mpr h2]

/-- Under a non-decreasing clock a stale entry is still stale at the next reading. -/
theorem stale_next (clk : Nat → Int) (hmono : Monotone clk) (n : Nat) (cached expire : Int)
    (h : clk n - cached > expire) : clk (n + 1) - cached > expire := by
  have := hmono (Nat.le_succ n)
  simp only [Nat.succ_eq_add_one] at this
  omega

/-- A miss under a non-decreasing clock: the operation's pair is returned and
stored with the call's expire, stamped with a reading taken by this call. -/
theorem Do_miss (clk : Nat → Int) (hmono : Monotone clk) (operation : Operation α ε σ)
    (key : String) (expire : Int) (w : World α ε σ)
    (hmiss : w.c.cache key = none ∨
      ∃ e, w.c.cache key = some e ∧ clk w.reads - e.cached > e.expire) :
    ∃ i, w.reads ≤ i
      ∧ (coalescer.Do clk operation key expire w).1 = some (operation w.env).1
      ∧ (coalescer.Do clk operation key expire w).2.c.cache key
          = some { response := (operation w.env).1.1, err := (operation w.env).1.2,
                   cached := clk i, expire := expire }
      ∧ (coalescer.Do clk operation key expire w).2.env = (operation w.env).2
      ∧ invocations (coalescer.Do clk operation key expire w).2 = invocations w + 1
      ∧ (coalescer.Do clk operation key expire w).2.reads = i + 1 := by
  rcases hmiss with h | ⟨e, h, hs⟩
  · rw [Do_absent clk operation key expire w h]
    exact ⟨w.reads, le_refl _, rfl, by simp [afterCompute], rfl,
      by simp [afterCompute, invocations], rfl⟩
  · rw [Do_stale clk operation key expire w e h hs (stale_next clk hmono _ _ _ hs)]
    exact ⟨w.reads + 2, by omega, rfl, by simp [afterCompute, afterRead], rfl,
      by simp [afterCompute, afterRead, invocations], rfl⟩

end Paths

/-! ## Single calls -/

section SingleCall

variable {α ε σ : Type}

/-- C2 (cache hit): if the map holds an entry for `key` whose age at the check
is at most its `expire`, then `Do` returns that entry's `(response, err)`, the
map is unchanged, the operation is not invoked (the captured state is
untouched and the only event of the call is the clock reading of the check). -/
theorem cache_hit_returns_entry (clk : Nat → Int) (operation : Operation α ε σ)
    (key : String) (ttl : Int) (w : World α ε σ) (e : content α ε)
    (hentry : w.c.cache key = some e)
    (hvalid : clk w.reads - e.cached ≤ e.expire) :
    (coalescer.Do clk operation key ttl w).1 = some (e.response, e.err)
    ∧ (coalescer.Do clk operation key ttl w).2.c = w.c
    ∧ (coalescer.Do clk operation key ttl w).2.c.cache key = some e
    ∧ (coalescer.Do clk operation key ttl w).2.env = w.env
    ∧ (coalescer.Do clk operation key ttl w).2.trace = Event.clock w.reads :: w.trace
    ∧ invocations (coalescer.Do clk operation key ttl w).2 = invocations w := by
  rw [Do_hit clk operation key ttl w e hentry hvalid]
  simp [afterRead, hentry, invocations]

/-- C3 (cache miss): under a non-decreasing clock, if the map has no entry for
`key` or the entry is older than its `expire`, then `Do` returns the pair the
operation produced, the operation ran exactly once (one `invoke` event, its
effect on the captured state applied once), and the entry stored under `key`
carries that pair, the `ttl` of this call, and as timestamp the clock reading
taken right after the invocation: the newest event of the call, later than
every reading of the validity checks. -/
theorem cache_miss_computes_and_stores (clk : Nat → Int) (hmono : Monotone clk)
    (operation : Operation α ε σ) (key : String) (ttl : Int) (w : World α ε σ)
    (hmiss : w.c.cache key = none ∨
      ∃ e, w.c.cache key = some e ∧ clk w.reads - e.cached > e.expire) :
    (coalescer.Do clk operation key ttl w).1 = some (operation w.env).1
    ∧ (coalescer.Do clk operation key ttl w).2.env = (operation w.env).2
    ∧ invocations (coalescer.Do clk operation key ttl w).2 = invocations w + 1
    ∧ ∃ i checks,
        (coalescer.Do clk operation key ttl w).2.trace
          = Event.clock i :: Event.invoke :: (checks ++ w.trace)
        ∧ Event.invoke ∉ checks
        ∧ (∀ j, Event.clock j ∈ checks → w.reads ≤ j ∧ j < i)
        ∧ w.reads ≤ i
        ∧ (coalescer.Do clk operation key ttl w).2.reads = i + 1
        ∧ (coalescer.Do clk operation key ttl w).2.c.cache key
          = some { response := (operation w.env).1.1, err := (operation w.env).1.2,
                   cached := clk i, expire := ttl } := by
  rcases hmiss with h | ⟨e, h, hs⟩
  · rw [Do_absent clk operation key ttl w h]
    refine ⟨rfl, rfl, ?_, w.reads, [], ?_⟩
    · simp [afterCompute, invocations]
    · simp [afterCompute]
  · rw [Do_stale clk operation key ttl w e h hs (stale_next clk hmono _ _ _ hs)]
    refine ⟨rfl, rfl, ?_, w.reads + 2, [Event.clock (w.reads + 1), Event.clock w.reads], ?_⟩
    · simp [afterCompute, afterRead, invocations]
    · simp [afterCompute, afterRead]

/-- C7 (validity rule): `invalidCachedValue` answers true exactly when the
entry is nil or its age exceeds its `expire`; it answers false exactly when
there is an entry of age at most `expire`; an entry whose age equals its
`expire` is valid. -/
theorem invalid_iff_absent_or_older (clk : Nat → Int) (cont : Option (content α ε))
    (w : World α ε σ) :
    ((invalidCachedValue clk cont w).1 = true ↔
      (cont = none ∨ ∃ e, cont = some e ∧ clk w.reads - e.cached > e.expire))
    ∧ ((invalidCachedValue clk cont w).1 = false ↔
      ∃ e, cont = some e ∧ clk w.reads - e.cached ≤ e.expire)
    ∧ ∀ (response : α) (err : Option ε) (cached : Int),
        (invalidCachedValue clk
          (some { response := response, err := err, cached := cached,
                  expire := clk w.reads - cached }) w).1 = false := by
  refine ⟨?_, ?_, ?_⟩
  · cases cont with
    | none => simp [invalidCachedValue]
    | some e => simp [invalidCachedValue, timeSince, timeNow]
  · cases cont with
    | none => simp [invalidCachedValue]
    | some e => simp [invalidCachedValue, timeSince, timeNow]
  · intro response err cached
    simp [invalidCachedValue, timeSince, timeNow]

end SingleCall

/-! ## Sequences of calls -/

section Sequences

variable {α ε σ : Type}

/-- Every call of `Do` takes one of the four paths. -/
theorem Do_cases (clk : Nat → Int) (operation : Operation α ε σ) (key : String) (expire : Int)
    (w : World α ε σ) :
    (w.c.cache key = none ∧
      coalescer.Do clk operation key expire w =
        (some (operation w.env).1, afterCompute clk operation key expire w))
    ∨ (∃ e, w.c.cache key = some e ∧ clk w.reads - e.cached ≤ e.expire ∧
      coalescer.Do clk operation key expire w = (some (e.response, e.err), afterRead w))
    ∨ (∃ e, w.c.cache key = some e ∧ clk w.reads - e.cached > e.expire ∧
      clk (w.reads + 1) - e.cached > e.expire ∧
      coalescer.Do clk operation key expire w =
        (some (operation w.env).1,
         afterCompute clk operation key expire (afterRead (afterRead w))))
    ∨ (∃ e, w.c.cache key = some e ∧ clk w.reads - e.cached > e.expire ∧
      clk (w.reads + 1) - e.cached ≤ e.expire ∧
      coalescer.Do clk operation key expire w =
        (some (e.response, e.err), afterRead (afterRead w))) := by
  cases h : w.c.cache key with
  | none => exact Or.inl ⟨rfl, Do_absent clk operation key expire w h⟩
  | some e =>
    by_cases h1 : clk w.reads - e.cached ≤ e.expire
    · exact Or.inr (Or.inl ⟨e, rfl, h1, Do_hit clk operation key expire w e h h1⟩)
    · have h1' : clk w.reads - e.cached > e.expire := not_le.mp h1
      by_cases h2 : clk (w.reads + 1) - e.cached ≤ e.expire
      · exact Or.inr (Or.inr (Or.inr
          ⟨e, rfl, h1', h2, Do_revalidated clk operation key expire w e h h1' h2⟩))
      · exact Or.inr (Or.inr (Or.inl
          ⟨e, rfl, h1', not_le.mp h2, Do_stale clk operation key expire w e h h1' (not_le.mp h2)⟩))

/-- A call never takes back a clock reading. -/
theorem Do_reads_le (clk : Nat → Int) (operation : Operation α ε σ) (key : String)
    (expire : Int) (w : World α ε σ) :
    w.reads ≤ (coalescer.Do clk operation key expire w).2.reads := by
  rcases Do_cases clk operation key expire w with
    ⟨_, h⟩ | ⟨e, _, _, h⟩ | ⟨e, _, _, _, h⟩ | ⟨e, _, _, _, h⟩ <;>
  rw [h] <;> simp [afterCompute, afterRead] <;> omega

/-- A call for one key leaves the entries of the other keys alone. -/
theorem Do_cache_other (clk : Nat → Int) (operation : Operation α ε σ) (key : String)
    (expire : Int) (w : World α ε σ) (k : String) (hk : k ≠ key) :
    (coalescer.Do clk operation key expire w).2.c.cache k = w.c.cache k := by
  rcases Do_cases clk operation key expire w with
    ⟨_, h⟩ | ⟨e, _, _, h⟩ | ⟨e, _, _, _, h⟩ | ⟨e, _, _, _, h⟩ <;>
  rw [h] <;> simp [afterCompute, afterRead, Function.update_noteq hk]

/-- A call either keeps the entry stored under `k` or started after it expired. -/
theorem Do_keeps_or_expired (clk : Nat → Int) (operation : Operation α ε σ) (key : String)
    (expire : Int) (w : World α ε σ) (k : String) (e : content α ε)
    (hk : w.c.cache k = some e) :
    (coalescer.Do clk operation key expire w).2.c.cache k = some e
      ∨ clk w.reads - e.cached > e.expire := by
  by_cases hkey : k = key
  · subst hkey
    rcases Do_cases clk operation k expire w with
      ⟨h0, _⟩ | ⟨e1, h0, _, h⟩ | ⟨e1, h0, h1, _, _⟩ | ⟨e1, h0, _, _, h⟩
    · rw [hk] at h0; cases h0
    · left; rw [h]; simpa [afterRead] using hk
    · right; rw [hk] at h0; cases h0; exact h1
    · left; rw [h]; simpa [afterRead] using hk
  · left; rw [Do_cache_other clk operation key expire w k hkey]; exact hk

/-- What a step of a run records is what `Do` did from the step's start. -/
theorem mem_runCalls (clk : Nat → Int) (calls : List (Call α ε σ)) (w : World α ε σ)
    (s : Step α ε σ) (hs : s ∈ runCalls clk calls w) :
    s.result = (coalescer.Do clk s.call.operation s.call.key s.call.expire s.start).1
    ∧ s.finish = (coalescer.Do clk s.call.operation s.call.key s.call.expire s.start).2 := by
  induction calls generalizing w with
  | nil => simp [runCalls] at hs
  | cons c cs ih =>
    simp only [runCalls, List.mem_cons] at hs
    rcases hs with rfl | hs
    · exact ⟨rfl, rfl⟩
    · exact ih _ hs

/-- Along a run under a non-decreasing clock, an entry stays in the map until
a call starts after it has expired. -/
theorem run_keeps_or_expired (clk : Nat → Int) (hmono : Monotone clk) (k : String)
    (e : content α ε) (calls : List (Call α ε σ)) (w : World α ε σ)
    (hw : w.c.cache k = some e ∨ clk w.reads - e.cached > e.expire)
    (s : Step α ε σ) (hs : s ∈ runCalls clk calls w) :
    s.start.c.cache k = some e ∨ clk s.start.reads - e.cached > e.expire := by
  induction calls generalizing w with
  | nil => simp [runCalls] at hs
  | cons c cs ih =>
    simp only [runCalls, List.mem_cons] at hs
    rcases hs with rfl | hs
    · exact hw
    · refine ih _ ?_ hs
      have hle := hmono (Do_reads_le clk c.operation c.key c.expire w)
      rcases hw with hw | hw
      · rcases Do_keeps_or_expired clk c.operation c.key c.expire w k e hw with h | h
        · exact Or.inl h
        · right; omega
      · right; omega

/-- C4 (error caching): under a non-decreasing clock, if a `Do` call misses and
its operation returns `(v, err)` with `err` not nil, the call returns and
stores that pair, and in every run of later calls (any keys, any operations,
any ttls) each call for the same key that starts while the age of that entry
is at most `ttl` returns `(v, err)` and does not invoke the operation it was
passed. -/
theorem error_result_is_cached (clk : Nat → Int) (hmono : Monotone clk)
    (operation : Operation α ε σ) (key : String) (ttl : Int) (w : World α ε σ)
    (v : α) (err : ε)
    (hmiss : w.c.cache key = none ∨
      ∃ e, w.c.cache key = some e ∧ clk w.reads - e.cached > e.expire)
    (hop : (operation w.env).1 = (v, some err))
    (later : List (Call α ε σ)) :
    (coalescer.Do clk operation key ttl w).1 = some (v, some err)
    ∧ ∃ e1, (coalescer.Do clk operation key ttl w).2.c.cache key = some e1
      ∧ e1.response = v ∧ e1.err = some err ∧ e1.expire = ttl
      ∧ ∀ s ∈ runCalls clk later (coalescer.Do clk operation key ttl w).2,
          s.call.key = key → clk s.start.reads - e1.cached ≤ ttl →
            s.result = some (v, some err)
            ∧ s.finish.env = s.start.env
            ∧ invocations s.finish = invocations s.start
            ∧ s.finish.c.cache key = some e1 := by
  obtain ⟨i, -, hres, hstore, -, -, -⟩ := Do_miss clk hmono operation key ttl w hmiss
  refine ⟨by rw [hres, hop], _, hstore, by simp [hop], by simp [hop], rfl, ?_⟩
  intro s hs hkey hwin
  obtain ⟨hr, hf⟩ := mem_runCalls clk later _ s hs
  rcases run_keeps_or_expired clk hmono key _ later _ (Or.inl hstore) s hs with h | h
  · have hhit := Do_hit clk s.call.operation key s.call.expire s.start _ h hwin
    rw [hkey] at hr hf
    rw [hr, hf, hhit]
    simp [afterRead, invocations, hop, h]
  · exact absurd hwin (not_le.mpr h)

end Sequences

/-! ## Runs of calls for one key -/

section Runs

variable {α ε σ : Type}

theorem runCalls_append (clk : Nat → Int) (a b : List (Call α ε σ)) (w : World α ε σ) :
    runCalls clk (a ++ b) w = runCalls clk a w ++ runCalls clk b (lastWorld clk a w) := by
  induction a generalizing w with
  | nil => rfl
  | cons c cs ih => simp [runCalls, lastWorld, ih]

theorem lastWorld_append (clk : Nat → Int) (a b : List (Call α ε σ)) (w : World α ε σ) :
    lastWorld clk (a ++ b) w = lastWorld clk b (lastWorld clk a w) := by
  induction a generalizing w with
  | nil => rfl
  | cons c cs ih => simp [lastWorld, ih]

/-- A run of calls for `key` that all start while the stored entry is valid:
all return the entry's pair, none invokes its operation, the map is unchanged. -/
theorem run_hits (clk : Nat → Int) (key : String) (e : content α ε)
    (calls : List (Call α ε σ)) (w : World α ε σ)
    (hkeys : ∀ c ∈ calls, c.key = key)
    (hentry : w.c.cache key = some e)
    (hwin : ∀ s ∈ runCalls clk calls w, clk s.start.reads - e.cached ≤ e.expire) :
    (runCalls clk calls w).map Step.result
        = List.replicate calls.length (some (e.response, e.err))
      ∧ (lastWorld clk calls w).c = w.c
      ∧ (lastWorld clk calls w).env = w.env
      ∧ invocations (lastWorld clk calls w) = invocations w := by
  induction calls generalizing w with
  | nil => simp [runCalls, lastWorld]
  | cons c cs ih =>
    have hk : c.key = key := hkeys c (List.mem_cons_self _ _)
    have h0 : clk w.reads - e.cached ≤ e.expire :=
      hwin ⟨c, w, (coalescer.Do clk c.operation c.key c.expire w).1,
        (coalescer.Do clk c.operation c.key c.expire w).2⟩ (by simp [runCalls])
    have hhit := Do_hit clk c.operation key c.expire w e hentry h0
    rw [← hk] at hhit
    have ih' := ih (afterRead w) (fun c' hc' => hkeys c' (List.mem_cons_of_mem _ hc'))
      (by simpa [afterRead] using hentry)
      (by
        intro s hs
        apply hwin
        simp only [runCalls, List.mem_cons, hhit]
        exact Or.inr hs)
    simp only [runCalls, lastWorld, hhit, List.map_cons, List.length_cons, List.replicate_succ]
    obtain ⟨i1, i2, i3, i4⟩ := ih'
    refine ⟨by rw [i1], ?_, ?_, ?_⟩
    · rw [i2]; rfl
    · rw [i3]; rfl
    · rw [i4]; simp [afterRead, invocations]

/-- A run whose calls after the first all start while the entry left by the
first call is valid: the later calls return that entry's pair and change
neither the map nor the captured state, and invoke nothing. -/
theorem run_first_then_hits (clk : Nat → Int) (key : String) (e : content α ε)
    (c : Call α ε σ) (cs : List (Call α ε σ)) (w : World α ε σ)
    (hkeys : ∀ c1 ∈ cs, c1.key = key)
    (hentry : (coalescer.Do clk c.operation c.key c.expire w).2.c.cache key = some e)
    (hwin : ∀ s ∈ (runCalls clk (c :: cs) w).tail, clk s.start.reads - e.cached ≤ e.expire) :
    (runCalls clk (c :: cs) w).map Step.result
        = (coalescer.Do clk c.operation c.key c.expire w).1
            :: List.replicate cs.length (some (e.response, e.err))
      ∧ (lastWorld clk (c :: cs) w).c = (coalescer.Do clk c.operation c.key c.expire w).2.c
      ∧ (lastWorld clk (c :: cs) w).env = (coalescer.Do clk c.operation c.key c.expire w).2.env
      ∧ invocations (lastWorld clk (c :: cs) w)
          = invocations (coalescer.Do clk c.operation c.key c.expire w).2 := by
  simp only [runCalls, List.tail_cons] at hwin
  obtain ⟨h1, h2, h3, h4⟩ := run_hits clk key e cs _ hkeys hentry hwin
  simp only [runCalls, lastWorld, List.map_cons]
  exact ⟨by rw [h1], h2, h3, h4⟩

end Runs

section CounterRuns

variable {ε : Type}

theorem counterCalls_keys (key : String) (ttls : List Int) :
    ∀ c ∈ counterCalls ε key ttls, c.key = key := by
  intro c hc
  simp only [counterCalls, List.mem_map] at hc
  obtain ⟨t, -, rfl⟩ := hc
  rfl

theorem counterCalls_length (key : String) (ttls : List Int) :
    (counterCalls ε key ttls).length = ttls.length := by
  simp [counterCalls]

/-- First call of a fresh coalescer with the counter operation at 0. -/
theorem Do_counter_fresh (clk : Nat → Int) (key : String) (ttl : Int) (r0 : Nat) :
    coalescer.Do clk (counterOperation ε) key ttl (freshWorld r0 0) =
      (some (1, none),
       { c := { cache := Function.update (fun _ => none) key
                  (some { response := 1, err := none, cached := clk r0, expire := ttl }) },
         reads := r0 + 1, env := 1, trace := [Event.clock r0, Event.invoke] }) := by
  rw [Do_absent clk (counterOperation ε) key ttl (freshWorld r0 0) rfl]
  simp [afterCompute, counterOperation, freshWorld, NewCoalescer]

/-- C5 (reuse within TTL): on a fresh coalescer, a non-empty sequence of calls
for one key with the counter operation (counter at 0), in which every call
after the first starts while the age of the entry stored by the first call is
at most the first call's ttl, invokes the operation once in total and every
call returns `(1, nil)`. -/
theorem reuse_within_ttl (clk : Nat → Int) (key : String) (ttl : Int) (ttls : List Int)
    (r0 : Nat) (e1 : content Int ε)
    (hfirst : (coalescer.Do clk (counterOperation ε) key ttl (freshWorld r0 0)).2.c.cache key
      = some e1)
    (hwin : ∀ s ∈ (runCalls clk (counterCalls ε key (ttl :: ttls)) (freshWorld r0 0)).tail,
      clk s.start.reads - e1.cached ≤ ttl) :
    (runCalls clk (counterCalls ε key (ttl :: ttls)) (freshWorld r0 0)).map Step.result
        = List.replicate (ttls.length + 1) (some (1, none))
      ∧ invocations (lastWorld clk (counterCalls ε key (ttl :: ttls)) (freshWorld r0 0)) = 1
      ∧ (lastWorld clk (counterCalls ε key (ttl :: ttls)) (freshWorld r0 0)).env = 1 := by
  have hdo := @Do_counter_fresh ε clk key ttl r0
  rw [hdo] at hfirst
  simp only [Function.update_same, Option.some.injEq] at hfirst
  subst hfirst
  have hcons : counterCalls ε key (ttl :: ttls)
      = { operation := counterOperation ε, key := key, expire := ttl } :: counterCalls ε key ttls :=
    rfl
  rw [hcons] at hwin ⊢
  simp only [runCalls, lastWorld, hdo, List.tail_cons, List.map_cons] at hwin ⊢
  obtain ⟨h1, -, h3, h4⟩ := run_hits clk key
    ({ response := 1, err := none, cached := clk r0, expire := ttl } : content Int ε)
    (counterCalls ε key ttls) _ (counterCalls_keys key ttls) (by simp) hwin
  rw [h1, h3, h4, counterCalls_length]
  simp [List.replicate_succ, invocations]

end CounterRuns

section Expiry

variable {ε : Type}

/-- C6 (recompute after expiry): on a fresh coalescer under a non-decreasing
clock, with the counter operation (counter at 0), one key and one ttl, a first
group of calls whose calls after the first start while the first entry is
valid, followed by a second group whose calls all start after the first entry
expired and, after the first of them, while the second entry is valid: the
first group returns `(1, nil)`, the second `(2, nil)`, and the operation is
invoked twice in total. -/
theorem recompute_after_expiry (clk : Nat → Int) (hmono : Monotone clk) (key : String)
    (ttl : Int) (n1 n2 r0 : Nat) (e1 e2 : content Int ε) (w1 : World Int ε Int)
    (hfirst : (coalescer.Do clk (counterOperation ε) key ttl (freshWorld r0 0)).2.c.cache key
      = some e1)
    (hgroup1 : ∀ s ∈ (runCalls clk (counterCalls ε key (List.replicate (n1 + 1) ttl))
        (freshWorld r0 0)).tail, clk s.start.reads - e1.cached ≤ ttl)
    (hw1 : w1 = lastWorld clk (counterCalls ε key (List.replicate (n1 + 1) ttl))
      (freshWorld r0 0))
    (hexpired : ∀ s ∈ runCalls clk (counterCalls ε key (List.replicate (n2 + 1) ttl)) w1,
      clk s.start.reads - e1.cached > ttl)
    (hsecond : (coalescer.Do clk (counterOperation ε) key ttl w1).2.c.cache key = some e2)
    (hgroup2 : ∀ s ∈ (runCalls clk (counterCalls ε key (List.replicate (n2 + 1) ttl)) w1).tail,
      clk s.start.reads - e2.cached ≤ ttl) :
    (runCalls clk
        (counterCalls ε key (List.replicate (n1 + 1) ttl ++ List.replicate (n2 + 1) ttl))
        (freshWorld r0 0)).map Step.result
        = List.replicate (n1 + 1) (some (1, none)) ++ List.replicate (n2 + 1) (some (2, none))
      ∧ invocations (lastWorld clk
          (counterCalls ε key (List.replicate (n1 + 1) ttl ++ List.replicate (n2 + 1) ttl))
          (freshWorld r0 0)) = 2
      ∧ (lastWorld clk
          (counterCalls ε key (List.replicate (n1 + 1) ttl ++ List.replicate (n2 + 1) ttl))
          (freshWorld r0 0)).env = 2 := by
  have hsplit : counterCalls ε key (List.replicate (n1 + 1) ttl ++ List.replicate (n2 + 1) ttl)
      = counterCalls ε key (List.replicate (n1 + 1) ttl)
        ++ counterCalls ε key (List.replicate (n2 + 1) ttl) := by
    simp [counterCalls]
  have hcons : ∀ n, counterCalls ε key (List.replicate (n + 1) ttl)
      = { operation := counterOperation ε, key := key, expire := ttl }
        :: counterCalls ε key (List.replicate n ttl) := fun _ => rfl
  rw [hsplit, runCalls_append, lastWorld_append, ← hw1]
  rw [hcons n1] at hgroup1 hw1 ⊢
  rw [hcons n2] at hexpired hgroup2 ⊢
  -- first group
  have hdo := @Do_counter_fresh ε clk key ttl r0
  have he1 : e1 = { response := 1, err := none, cached := clk r0, expire := ttl } := by
    rw [hdo] at hfirst
    simpa using hfirst.symm
  subst he1
  obtain ⟨a1, a2, a3, a4⟩ := run_first_then_hits clk key _ _
    (counterCalls ε key (List.replicate n1 ttl)) (freshWorld r0 0)
    (counterCalls_keys key _) hfirst hgroup1
  rw [← hw1] at a2 a3 a4
  rw [hdo] at a1 a2 a3 a4
  simp [invocations] at a4
  simp only at a1 a2 a3
  -- second group
  have hentry1 : w1.c.cache key
      = some { response := 1, err := none, cached := clk r0, expire := ttl } := by
    rw [a2]; simp
  have hstale : clk w1.reads - clk r0 > ttl :=
    hexpired ⟨⟨counterOperation ε, key, ttl⟩, w1,
      (coalescer.Do clk (counterOperation ε) key ttl w1).1,
      (coalescer.Do clk (counterOperation ε) key ttl w1).2⟩ (by simp [runCalls])
  obtain ⟨i, -, b1, b2, b3, b4, -⟩ := Do_miss clk hmono (counterOperation ε) key ttl w1
    (Or.inr ⟨_, hentry1, hstale⟩)
  have he2 : e2 = { response := 2, err := none, cached := clk i, expire := ttl } := by
    rw [b2] at hsecond
    simpa [counterOperation, a3] using hsecond.symm
  subst he2
  obtain ⟨c1, -, c3, c4⟩ := run_first_then_hits clk key _ _
    (counterCalls ε key (List.replicate n2 ttl)) w1
    (counterCalls_keys key _) hsecond hgroup2
  rw [List.map_append, a1, c1, c3, c4, b1, b3, b4]
  simp [counterOperation, a3, invocations, a4, counterCalls_length, List.replicate_succ]

end Expiry

/-! ## Entries and their ttl -/

section Ttl

variable {α ε σ : Type}

/-- In a reachable world every stored timestamp is a clock reading taken
earlier by the program. -/
theorem reachable_cached_past (clk : Nat → Int) (w : World α ε σ) (hreach : Reachable clk w)
    (k : String) (e : content α ε) (hk : w.c.cache k = some e) :
    ∃ i, i < w.reads ∧ e.cached = clk i := by
  induction hreach generalizing k e with
  | fresh reads env => simp [freshWorld, NewCoalescer] at hk
  | call w operation key expire _ ih =>
    have hle := Do_reads_le clk operation key expire w
    by_cases hkey : k = key
    · subst hkey
      rcases Do_cases clk operation k expire w with
        ⟨_, h⟩ | ⟨e1, h0, _, h⟩ | ⟨e1, _, _, _, h⟩ | ⟨e1, h0, _, _, h⟩
      · rw [h] at hk ⊢
        simp only [afterCompute, Function.update_same, Option.some.injEq] at hk ⊢
        subst hk
        exact ⟨w.reads, by omega, rfl⟩
      · rw [h] at hk ⊢
        obtain ⟨i, hi, hc⟩ := ih k e (by simpa [afterRead] using hk)
        exact ⟨i, by simp only [afterRead]; omega, hc⟩
      · rw [h] at hk ⊢
        simp only [afterCompute, afterRead, Function.update_same, Option.some.injEq] at hk ⊢
        subst hk
        exact ⟨w.reads + 1 + 1, by omega, rfl⟩
      · rw [h] at hk ⊢
        obtain ⟨i, hi, hc⟩ := ih k e (by simpa [afterRead] using hk)
        exact ⟨i, by simp only [afterRead]; omega, hc⟩
    · rw [Do_cache_other clk operation key expire w k hkey] at hk
      obtain ⟨i, hi, hc⟩ := ih k e hk
      exact ⟨i, by omega, hc⟩
  | idle w n f _ ih =>
    obtain ⟨i, hi, hc⟩ := ih k e hk
    exact ⟨i, by simp only; omega, hc⟩

/-- C8, as the code has it (zero TTL): under a non-decreasing clock, a call
that finds an entry stored with `expire = 0` is a miss when its clock reading
is strictly after the entry's timestamp (it invokes its operation once and
returns its pair), and a hit when its clock reading equals the timestamp (it
returns the entry's pair and invokes nothing). -/
theorem zero_ttl_miss_after_timestamp (clk : Nat → Int) (hmono : Monotone clk)
    (operation : Operation α ε σ) (key : String) (ttl : Int) (w : World α ε σ)
    (e : content α ε) (hentry : w.c.cache key = some e) (hzero : e.expire = 0) :
    (e.cached < clk w.reads →
      (coalescer.Do clk operation key ttl w).1 = some (operation w.env).1
      ∧ (coalescer.Do clk operation key ttl w).2.env = (operation w.env).2
      ∧ invocations (coalescer.Do clk operation key ttl w).2 = invocations w + 1)
    ∧ (clk w.reads = e.cached →
      (coalescer.Do clk operation key ttl w).1 = some (e.response, e.err)
      ∧ (coalescer.Do clk operation key ttl w).2.env = w.env
      ∧ invocations (coalescer.Do clk operation key ttl w).2 = invocations w) := by
  constructor
  · intro hafter
    obtain ⟨i, -, h1, -, h3, h4, -⟩ := Do_miss clk hmono operation key ttl w
      (Or.inr ⟨e, hentry, by omega⟩)
    exact ⟨h1, h3, h4⟩
  · intro heq
    rw [Do_hit clk operation key ttl w e hentry (by omega)]
    simp [afterRead, invocations]

/-- C9 (negative TTL): under a non-decreasing clock, in every reachable world
a call for a key whose stored entry has `expire < 0` is a miss: it invokes its
operation exactly once and returns its pair. -/
theorem negative_ttl_always_miss (clk : Nat → Int) (hmono : Monotone clk)
    (operation : Operation α ε σ) (key : String) (ttl : Int) (w : World α ε σ)
    (e : content α ε) (hreach : Reachable clk w) (hentry : w.c.cache key = some e)
    (hneg : e.expire < 0) :
    (coalescer.Do clk operation key ttl w).1 = some (operation w.env).1
    ∧ (coalescer.Do clk operation key ttl w).2.env = (operation w.env).2
    ∧ invocations (coalescer.Do clk operation key ttl w).2 = invocations w + 1 := by
  obtain ⟨j, hj, hc⟩ := reachable_cached_past clk w hreach key e hentry
  have hle := hmono (Nat.le_of_lt hj)
  obtain ⟨i, -, h1, -, h3, h4, -⟩ := Do_miss clk hmono operation key ttl w
    (Or.inr ⟨e, hentry, by omega⟩)
  exact ⟨h1, h3, h4⟩

/-- C10 (stored TTL governs): under a non-decreasing clock, for a call that
finds an entry `e` and passes ttl `t2`: it is a hit exactly when the entry's
age is at most the stored `e.expire`; on a hit the map (so the stored expire)
is unchanged; on a miss the new entry carries `t2`; and the returned pair and
the number of invocations are the same for every other ttl argument. -/
theorem stored_ttl_governs (clk : Nat → Int) (hmono : Monotone clk)
    (operation : Operation α ε σ) (key : String) (t2 : Int) (w : World α ε σ)
    (e : content α ε) (hentry : w.c.cache key = some e) :
    (invocations (coalescer.Do clk operation key t2 w).2 = invocations w
        ↔ clk w.reads - e.cached ≤ e.expire)
    ∧ (clk w.reads - e.cached ≤ e.expire →
        (coalescer.Do clk operation key t2 w).1 = some (e.response, e.err)
        ∧ (coalescer.Do clk operation key t2 w).2.c = w.c)
    ∧ (clk w.reads - e.cached > e.expire →
        invocations (coalescer.Do clk operation key t2 w).2 = invocations w + 1
        ∧ ∃ e1, (coalescer.Do clk operation key t2 w).2.c.cache key = some e1
            ∧ e1.expire = t2)
    ∧ ∀ t3 : Int,
        (coalescer.Do clk operation key t3 w).1 = (coalescer.Do clk operation key t2 w).1
        ∧ invocations (coalescer.Do clk operation key t3 w).2
            = invocations (coalescer.Do clk operation key t2 w).2 := by
  by_cases hv : clk w.reads - e.cached ≤ e.expire
  · have hhit := fun t => Do_hit clk operation key t w e hentry hv
    refine ⟨?_, ?_, ?_, ?_⟩
    · rw [hhit]; simp [afterRead, invocations, hv]
    · intro _; rw [hhit]; simp [afterRead]
    · intro h; omega
    · intro t3; rw [hhit, hhit]; simp
  · have hs : clk w.reads - e.cached > e.expire := not_le.mp hv
    have hst := fun t =>
      Do_stale clk operation key t w e hentry hs (stale_next clk hmono _ _ _ hs)
    refine ⟨?_, ?_, ?_, ?_⟩
    · rw [hst]; simp [afterCompute, afterRead, invocations, hv]
    · intro h; exact absurd h hv
    · intro _; rw [hst]
      exact ⟨by simp [afterCompute, afterRead, invocations],
        { response := (operation w.env).1.1, err := (operation w.env).1.2,
          cached := clk (w.reads + 1 + 1), expire := t2 },
        by simp [afterCompute, afterRead], rfl⟩
    · intro t3; rw [hst, hst]; simp [afterCompute, afterRead, invocations]

end Ttl

/-! ## Concrete executions -/

section Concrete

theorem unitClock_mono : Monotone unitClock := fun _ _ h => Int.ofNat_le.mpr h

theorem jumpClock_mono : Monotone jumpClock := by
  intro a b h
  simp only [jumpClock]
  split_ifs <;> omega

/-- One call with ttl 5 on a fresh coalescer, then a call with ttl 9 one tick
later: the second call finds the entry valid and returns its pair. -/
theorem cache_hit_returns_entry_witness :
    unitClock (coalescer.Do unitClock (counterOperation String) "k" 5 (freshWorld 0 0)).2.reads
        - 0 ≤ 5
    ∧ (coalescer.Do unitClock (counterOperation String) "k" 9
        (coalescer.Do unitClock (counterOperation String) "k" 5 (freshWorld 0 0)).2).1
      = some (1, none)
    ∧ invocations (coalescer.Do unitClock (counterOperation String) "k" 9
        (coalescer.Do unitClock (counterOperation String) "k" 5 (freshWorld 0 0)).2).2 = 1 :=
  have h := cache_hit_returns_entry unitClock (counterOperation String) "k" 9
    (coalescer.Do unitClock (counterOperation String) "k" 5 (freshWorld 0 0)).2
    { response := 1, err := none, cached := 0, expire := 5 } rfl (by decide)
  ⟨by decide, h.1, h.2.2.2.2.2⟩

/-- One call with ttl 0 on a fresh coalescer, then a call with ttl 5 one tick
later: the entry is stale, the operation runs again and its pair `(2, nil)`
is returned and stored with ttl 5 and the timestamp of the fourth reading. -/
theorem cache_miss_computes_and_stores_witness :
    Monotone unitClock
    ∧ unitClock (coalescer.Do unitClock (counterOperation String) "k" 0 (freshWorld 0 0)).2.reads
        - 0 > 0
    ∧ (coalescer.Do unitClock (counterOperation String) "k" 5
        (coalescer.Do unitClock (counterOperation String) "k" 0 (freshWorld 0 0)).2).1
      = some (2, none)
    ∧ invocations (coalescer.Do unitClock (counterOperation String) "k" 5
        (coalescer.Do unitClock (counterOperation String) "k" 0 (freshWorld 0 0)).2).2 = 2 :=
  have h := cache_miss_computes_and_stores unitClock unitClock_mono (counterOperation String)
    "k" 5 (coalescer.Do unitClock (counterOperation String) "k" 0 (freshWorld 0 0)).2
    (Or.inr ⟨{ response := 1, err := none, cached := 0, expire := 0 }, rfl, by decide⟩)
  ⟨unitClock_mono, by decide, h.1, h.2.2.1⟩

/-- A failing operation on a fresh coalescer with ttl 5, then a call with the
counter operation one tick later: it returns the cached error. -/
theorem error_result_is_cached_witness :
    (coalescer.Do unitClock (counterOperation String) "k" 1
        (coalescer.Do unitClock failingOperation "k" 5 (freshWorld 0 0)).2).1
      = some (0, some "boom") := by
  obtain ⟨-, e1, hst, -, -, -, hall⟩ :=
    error_result_is_cached unitClock unitClock_mono failingOperation "k" 5 (freshWorld 0 0)
      0 "boom" (Or.inl rfl) rfl [{ operation := counterOperation String, key := "k", expire := 1 }]
  have he : e1 = { response := 0, err := some "boom", cached := 0, expire := 5 } :=
    (Option.some.inj hst).symm
  subst he
  exact (hall
    { call := { operation := counterOperation String, key := "k", expire := 1 },
      start := (coalescer.Do unitClock failingOperation "k" 5 (freshWorld 0 0)).2,
      result := (coalescer.Do unitClock (counterOperation String) "k" 1
        (coalescer.Do unitClock failingOperation "k" 5 (freshWorld 0 0)).2).1,
      finish := (coalescer.Do unitClock (counterOperation String) "k" 1
        (coalescer.Do unitClock failingOperation "k" 5 (freshWorld 0 0)).2).2 }
    (by simp [runCalls]) rfl (by decide)).1

/-- Three calls one tick apart, ttls 5, 3 and 7: one invocation, all return
`(1, nil)`. -/
theorem reuse_within_ttl_witness :
    (runCalls unitClock (counterCalls String "k" [5, 3, 7]) (freshWorld 0 0)).map Step.result
        = [some (1, none), some (1, none), some (1, none)]
    ∧ invocations (lastWorld unitClock (counterCalls String "k" [5, 3, 7]) (freshWorld 0 0)) = 1
    ∧ (lastWorld unitClock (counterCalls String "k" [5, 3, 7]) (freshWorld 0 0)).env = 1 :=
  reuse_within_ttl unitClock "k" 5 [3, 7] 0
    { response := 1, err := none, cached := 0, expire := 5 } rfl
    (by
      intro s hs
      simp only [runCalls, counterCalls, List.map, List.tail, List.mem_cons, List.mem_nil_iff,
        or_false] at hs
      rcases hs with rfl | rfl <;> decide)

/-- Two calls one tick apart, a pause of a hundred ticks, two more calls, all
with ttl 5: the results are 1, 1, 2, 2 and the operation ran twice. -/
theorem recompute_after_expiry_witness :
    (runCalls jumpClock
        (counterCalls String "k" (List.replicate (1 + 1) 5 ++ List.replicate (1 + 1) 5))
        (freshWorld 0 0)).map Step.result
        = List.replicate (1 + 1) (some (1, none)) ++ List.replicate (1 + 1) (some (2, none))
    ∧ invocations (lastWorld jumpClock
        (counterCalls String "k" (List.replicate (1 + 1) 5 ++ List.replicate (1 + 1) 5))
        (freshWorld 0 0)) = 2
    ∧ (lastWorld jumpClock
        (counterCalls String "k" (List.replicate (1 + 1) 5 ++ List.replicate (1 + 1) 5))
        (freshWorld 0 0)).env = 2 :=
  recompute_after_expiry jumpClock jumpClock_mono "k" 5 1 1 0
    { response := 1, err := none, cached := 0, expire := 5 }
    { response := 2, err := none, cached := 104, expire := 5 }
    (lastWorld jumpClock (counterCalls String "k" (List.replicate (1 + 1) 5)) (freshWorld 0 0))
    rfl
    (by
      intro s hs
      simp only [runCalls, counterCalls, List.replicate, List.map, List.tail, List.mem_cons,
        List.mem_nil_iff, or_false] at hs
      subst hs
      decide)
    rfl
    (by
      intro s hs
      simp only [runCalls, counterCalls, List.replicate, List.map, List.mem_cons,
        List.mem_nil_iff, or_false] at hs
      rcases hs with rfl | rfl <;> decide)
    rfl
    (by
      intro s hs
      simp only [runCalls, counterCalls, List.replicate, List.map, List.tail, List.mem_cons,
        List.mem_nil_iff, or_false] at hs
      subst hs
      decide)

/-- C8 fails at a reading equal to the timestamp: on a clock whose readings
are all 0, a call with ttl 0 on a fresh coalescer stores an entry with
timestamp 0 and expire 0; the next call for the key reads 0, finds the entry
valid (age 0 is not greater than 0), does not invoke its operation and
returns the first result. -/
theorem zero_ttl_hit_at_equal_reading :
    (coalescer.Do stoppedClock (counterOperation String) "k" 0 (freshWorld 0 0)).2.c.cache "k"
      = some { response := 1, err := none, cached := 0, expire := 0 }
    ∧ stoppedClock
        (coalescer.Do stoppedClock (counterOperation String) "k" 0 (freshWorld 0 0)).2.reads = 0
    ∧ (coalescer.Do stoppedClock (counterOperation String) "k" 0
        (coalescer.Do stoppedClock (counterOperation String) "k" 0 (freshWorld 0 0)).2).1
      = some (1, none)
    ∧ invocations (coalescer.Do stoppedClock (counterOperation String) "k" 0
        (coalescer.Do stoppedClock (counterOperation String) "k" 0 (freshWorld 0 0)).2).2
      = invocations
          (coalescer.Do stoppedClock (counterOperation String) "k" 0 (freshWorld 0 0)).2
    ∧ (coalescer.Do stoppedClock (counterOperation String) "k" 0
        (coalescer.Do stoppedClock (counterOperation String) "k" 0 (freshWorld 0 0)).2).2.env
      = 1 :=
  ⟨rfl, rfl, rfl, by decide, rfl⟩

/-- A call with ttl 0 on a fresh coalescer, then a call one tick later: a miss. -/
theorem zero_ttl_miss_after_timestamp_witness :
    Monotone unitClock
    ∧ (0 : Int) < unitClock
        (coalescer.Do unitClock (counterOperation String) "k" 0 (freshWorld 0 0)).2.reads
    ∧ invocations (coalescer.Do unitClock (counterOperation String) "k" 0
        (coalescer.Do unitClock (counterOperation String) "k" 0 (freshWorld 0 0)).2).2 = 2 :=
  ⟨unitClock_mono, by decide,
    ((zero_ttl_miss_after_timestamp unitClock unitClock_mono (counterOperation String) "k" 0
      (coalescer.Do unitClock (counterOperation String) "k" 0 (freshWorld 0 0)).2
      { response := 1, err := none, cached := 0, expire := 0 } rfl rfl).1 (by decide)).2.2⟩

/-- A call with ttl -1 on a fresh coalescer, then another call: a miss. -/
theorem negative_ttl_always_miss_witness :
    Reachable unitClock
      (coalescer.Do unitClock (counterOperation String) "k" (-1) (freshWorld 0 0)).2
    ∧ (coalescer.Do unitClock (counterOperation String) "k" 7
        (coalescer.Do unitClock (counterOperation String) "k" (-1) (freshWorld 0 0)).2).1
      = some (2, none) :=
  ⟨Reachable.call _ _ _ _ (Reachable.fresh 0 0),
    (negative_ttl_always_miss unitClock unitClock_mono (counterOperation String) "k" 7
      (coalescer.Do unitClock (counterOperation String) "k" (-1) (freshWorld 0 0)).2
      { response := 1, err := none, cached := 0, expire := -1 }
      (Reachable.call _ _ _ _ (Reachable.fresh 0 0)) rfl (by decide)).1⟩

/-- A call with ttl 5 on a fresh coalescer, then a call with ttl 0 one tick
later: a hit, and the stored expire is still 5. -/
theorem stored_ttl_governs_witness :
    (coalescer.Do unitClock (counterOperation String) "k" 0
        (coalescer.Do unitClock (counterOperation String) "k" 5 (freshWorld 0 0)).2).2.c
      = (coalescer.Do unitClock (counterOperation String) "k" 5 (freshWorld 0 0)).2.c :=
  ((stored_ttl_governs unitClock unitClock_mono (counterOperation String) "k" 0
      (coalescer.Do unitClock (counterOperation String) "k" 5 (freshWorld 0 0)).2
      { response := 1, err := none, cached := 0, expire := 5 } rfl).2.1 (by decide)).2

end Concrete

/-! ## Keys -/

section Keys

variable {α ε σ : Type}

/-- Replacing the entry of another key changes nothing a call reads. -/
theorem Do_other_entry (clk : Nat → Int) (operation : Operation α ε σ) (keyA keyB : String)
    (expire : Int) (w : World α ε σ) (x : Option (content α ε)) (hAB : keyA ≠ keyB) :
    (coalescer.Do clk operation keyA expire
        { w with c := { cache := Function.update w.c.cache keyB x } }).1
      = (coalescer.Do clk operation keyA expire w).1
    ∧ (coalescer.Do clk operation keyA expire
        { w with c := { cache := Function.update w.c.cache keyB x } }).2
      = { (coalescer.Do clk operation keyA expire w).2 with
          c := { cache := Function.update
                  (coalescer.Do clk operation keyA expire w).2.c.cache keyB x } } := by
  have hA : (Function.update w.c.cache keyB x) keyA = w.c.cache keyA :=
    Function.update_noteq hAB _ _
  rcases Do_cases clk operation keyA expire w with
    ⟨h0, h⟩ | ⟨e, h0, h1, h⟩ | ⟨e, h0, h1, h2, h⟩ | ⟨e, h0, h1, h2, h⟩
  · rw [h, Do_absent clk operation keyA expire
      { w with c := { cache := Function.update w.c.cache keyB x } } (by simpa [hA] using h0)]
    simp [afterCompute, Function.update_comm hAB]
  · rw [h, Do_hit clk operation keyA expire
      { w with c := { cache := Function.update w.c.cache keyB x } } e
      (by simpa [hA] using h0) h1]
    simp [afterRead]
  · rw [h, Do_stale clk operation keyA expire
      { w with c := { cache := Function.update w.c.cache keyB x } } e
      (by simpa [hA] using h0) h1 h2]
    simp [afterCompute, afterRead, Function.update_comm hAB]
  · rw [h, Do_revalidated clk operation keyA expire
      { w with c := { cache := Function.update w.c.cache keyB x } } e
      (by simpa [hA] using h0) h1 h2]
    simp [afterRead]

/-- C11 (independent keys): for keys A ≠ B, a `Do` call for A leaves what the
map holds under B unchanged; it returns either the pair of A's own stored
entry, invoking nothing, or the pair of the operation passed to this call,
invoked once; and what it returns, invokes and does to the captured state is
the same whatever the map holds under B (an entry for B, valid or not, or
none): an entry for B never makes a call for A skip its operation or return
B's result. -/
theorem independent_keys (clk : Nat → Int) (operation : Operation α ε σ) (keyA keyB : String)
    (ttl : Int) (w : World α ε σ) (hAB : keyA ≠ keyB) :
    (coalescer.Do clk operation keyA ttl w).2.c.cache keyB = w.c.cache keyB
    ∧ ((∃ e, w.c.cache keyA = some e
          ∧ (coalescer.Do clk operation keyA ttl w).1 = some (e.response, e.err)
          ∧ invocations (coalescer.Do clk operation keyA ttl w).2 = invocations w
          ∧ (coalescer.Do clk operation keyA ttl w).2.env = w.env)
        ∨ ((coalescer.Do clk operation keyA ttl w).1 = some (operation w.env).1
          ∧ invocations (coalescer.Do clk operation keyA ttl w).2 = invocations w + 1
          ∧ (coalescer.Do clk operation keyA ttl w).2.env = (operation w.env).2))
    ∧ (w.c.cache keyA = none →
        (coalescer.Do clk operation keyA ttl w).1 = some (operation w.env).1
        ∧ invocations (coalescer.Do clk operation keyA ttl w).2 = invocations w + 1)
    ∧ ∀ x : Option (content α ε),
        (coalescer.Do clk operation keyA ttl
            { w with c := { cache := Function.update w.c.cache keyB x } }).1
          = (coalescer.Do clk operation keyA ttl w).1
        ∧ (coalescer.Do clk operation keyA ttl
            { w with c := { cache := Function.update w.c.cache keyB x } }).2.env
          = (coalescer.Do clk operation keyA ttl w).2.env
        ∧ (coalescer.Do clk operation keyA ttl
            { w with c := { cache := Function.update w.c.cache keyB x } }).2.trace
          = (coalescer.Do clk operation keyA ttl w).2.trace
        ∧ (coalescer.Do clk operation keyA ttl
            { w with c := { cache := Function.update w.c.cache keyB x } }).2.c.cache keyA
          = (coalescer.Do clk operation keyA ttl w).2.c.cache keyA := by
  refine ⟨Do_cache_other clk operation keyA ttl w keyB (Ne.symm hAB), ?_, ?_, ?_⟩
  · rcases Do_cases clk operation keyA ttl w with
      ⟨_, h⟩ | ⟨e, h0, _, h⟩ | ⟨e, _, _, _, h⟩ | ⟨e, h0, _, _, h⟩
    · right; rw [h]; simp [afterCompute, invocations]
    · left; exact ⟨e, h0, by rw [h], by rw [h]; simp [afterRead, invocations],
        by rw [h]; rfl⟩
    · right; rw [h]; simp [afterCompute, afterRead, invocations]
    · left; exact ⟨e, h0, by rw [h], by rw [h]; simp [afterRead, invocations],
        by rw [h]; rfl⟩
  · intro h0
    rw [Do_absent clk operation keyA ttl w h0]
    simp [afterCompute, invocations]
  · intro x
    obtain ⟨h1, h2⟩ := Do_other_entry clk operation keyA keyB ttl w x hAB
    rw [h1, h2]
    exact ⟨rfl, rfl, rfl, Function.update_noteq hAB _ _⟩

/-- C13 (entries are never deleted): after a `Do` call with key `key`, the
keys present in the map are those present before together with `key`; in
particular no key is removed and `key` itself is present afterwards (a stale
entry is replaced, not removed). -/
theorem keys_after_Do (clk : Nat → Int) (operation : Operation α ε σ) (key : String)
    (ttl : Int) (w : World α ε σ) :
    (∀ k, (coalescer.Do clk operation key ttl w).2.c.cache k ≠ none
        ↔ (w.c.cache k ≠ none ∨ k = key))
    ∧ (∀ k, w.c.cache k ≠ none → (coalescer.Do clk operation key ttl w).2.c.cache k ≠ none)
    ∧ (coalescer.Do clk operation key ttl w).2.c.cache key ≠ none := by
  have hkey : (coalescer.Do clk operation key ttl w).2.c.cache key ≠ none := by
    rcases Do_cases clk operation key ttl w with
      ⟨_, h⟩ | ⟨e, h0, _, h⟩ | ⟨e, _, _, _, h⟩ | ⟨e, h0, _, _, h⟩
    · rw [h]; simp [afterCompute]
    · rw [h]; simp [afterRead, h0]
    · rw [h]; simp [afterCompute]
    · rw [h]; simp [afterRead, h0]
  have hiff : ∀ k, (coalescer.Do clk operation key ttl w).2.c.cache k ≠ none
      ↔ (w.c.cache k ≠ none ∨ k = key) := by
    intro k
    by_cases hk : k = key
    · subst hk; simp [hkey]
    · rw [Do_cache_other clk operation key ttl w k hk]; simp [hk]
  exact ⟨hiff, fun k hk => (hiff k).mpr (Or.inl hk), hkey⟩

/-- C14 (fresh instance is empty): the map of `NewCoalescer` has no entry for
any key, and the first `Do` call on it, for any key, operation and ttl (and
whatever the clock reads), invokes the operation exactly once, returns its
pair and stores it. -/
theorem fresh_is_empty_and_first_call_computes (clk : Nat → Int)
    (operation : Operation α ε σ) (key : String) (ttl : Int) (reads : Nat) (env : σ)
    (trace : List Event) :
    (∀ k, (NewCoalescer : coalescer α ε).cache k = none)
    ∧ (coalescer.Do clk operation key ttl
        { c := NewCoalescer, reads := reads, env := env, trace := trace }).1
      = some (operation env).1
    ∧ (coalescer.Do clk operation key ttl
        { c := NewCoalescer, reads := reads, env := env, trace := trace }).2.trace
      = Event.clock reads :: Event.invoke :: trace
    ∧ invocations (coalescer.Do clk operation key ttl
        { c := NewCoalescer, reads := reads, env := env, trace := trace }).2
      = List.count Event.invoke trace + 1
    ∧ (coalescer.Do clk operation key ttl
        { c := NewCoalescer, reads := reads, env := env, trace := trace }).2.env
      = (operation env).2
    ∧ (coalescer.Do clk operation key ttl
        { c := NewCoalescer, reads := reads, env := env, trace := trace }).2.c.cache key
      = some { response := (operation env).1.1, err := (operation env).1.2,
               cached := clk reads, expire := ttl } := by
  rw [Do_absent clk operation key ttl _ rfl]
  simp [afterCompute, invocations, NewCoalescer]

/-- C15 (second check in `set`): if, when `set` reads the map, it holds an
entry for `key` whose age is at most its `expire`, then `set` returns that
entry, leaves the map and the captured state unchanged and does not invoke the
operation: its only event is the clock reading of the check. -/
theorem set_returns_valid_entry (clk : Nat → Int) (operation : Operation α ε σ)
    (key : String) (ttl : Int) (w : World α ε σ) (e : content α ε)
    (hentry : w.c.cache key = some e)
    (hvalid : clk w.reads - e.cached ≤ e.expire) :
    (coalescer.set clk operation key ttl w).1 = some e
    ∧ (coalescer.set clk operation key ttl w).2.c = w.c
    ∧ (coalescer.set clk operation key ttl w).2.env = w.env
    ∧ (coalescer.set clk operation key ttl w).2.trace = Event.clock w.reads :: w.trace
    ∧ invocations (coalescer.set clk operation key ttl w).2 = invocations w := by
  simp [coalescer.set, invalidCachedValue, hentry, timeSince, timeNow, invocations,
    not_lt.mpr hvalid]

/-- C16 (returned pair is what is stored): `Do` always returns a pair, and
after the call the map holds under `key` an entry whose response and err are
that pair, on a hit as on a miss. -/
theorem returned_pair_is_stored (clk : Nat → Int) (operation : Operation α ε σ)
    (key : String) (ttl : Int) (w : World α ε σ) :
    ∃ e, (coalescer.Do clk operation key ttl w).2.c.cache key = some e
      ∧ (coalescer.Do clk operation key ttl w).1 = some (e.response, e.err) := by
  rcases Do_cases clk operation key ttl w with
    ⟨_, h⟩ | ⟨e, h0, _, h⟩ | ⟨e, _, _, _, h⟩ | ⟨e, h0, _, _, h⟩
  · rw [h]
    exact ⟨{ response := (operation w.env).1.1, err := (operation w.env).1.2,
             cached := clk w.reads, expire := ttl }, by simp [afterCompute], rfl⟩
  · rw [h]; exact ⟨e, by simpa [afterRead] using h0, rfl⟩
  · rw [h]
    exact ⟨{ response := (operation w.env).1.1, err := (operation w.env).1.2,
             cached := clk (w.reads + 1 + 1), expire := ttl },
      by simp [afterCompute, afterRead], rfl⟩
  · rw [h]; exact ⟨e, by simpa [afterRead] using h0, rfl⟩

end Keys

/-! ## Where returned pairs come from -/

section Origin

variable {α ε σ : Type}

/-- An entry found in the map after a call was there before, or is the pair
of the operation this call invoked, stored under the call's key. -/
theorem Do_entry_origin (clk : Nat → Int) (operation : Operation α ε σ) (key : String)
    (expire : Int) (w : World α ε σ) (k : String) (e : content α ε)
    (hk : (coalescer.Do clk operation key expire w).2.c.cache k = some e) :
    w.c.cache k = some e
    ∨ (k = key
      ∧ invocations (coalescer.Do clk operation key expire w).2 = invocations w + 1
      ∧ (e.response, e.err) = (operation w.env).1) := by
  by_cases hkey : k = key
  · subst hkey
    rcases Do_cases clk operation k expire w with
      ⟨_, h⟩ | ⟨e1, h0, _, h⟩ | ⟨e1, _, _, _, h⟩ | ⟨e1, h0, _, _, h⟩
    · right
      rw [h] at hk ⊢
      simp only [afterCompute, Function.update_same, Option.some.injEq] at hk
      subst hk
      exact ⟨rfl, by simp [afterCompute, invocations], rfl⟩
    · left; rw [h] at hk; simpa [afterRead] using hk
    · right
      rw [h] at hk ⊢
      simp only [afterCompute, afterRead, Function.update_same, Option.some.injEq] at hk
      subst hk
      exact ⟨rfl, by simp [afterCompute, afterRead, invocations], rfl⟩
    · left; rw [h] at hk; simpa [afterRead] using hk
  · left; rwa [Do_cache_other clk operation key expire w k hkey] at hk

/-- The pair a call returns is that of the entry it found under its key, or
that of the operation it invoked. -/
theorem Do_result_origin (clk : Nat → Int) (operation : Operation α ε σ) (key : String)
    (expire : Int) (w : World α ε σ) :
    (∃ e, w.c.cache key = some e
      ∧ (coalescer.Do clk operation key expire w).1 = some (e.response, e.err))
    ∨ (invocations (coalescer.Do clk operation key expire w).2 = invocations w + 1
      ∧ (coalescer.Do clk operation key expire w).1 = some (operation w.env).1) := by
  rcases Do_cases clk operation key expire w with
    ⟨_, h⟩ | ⟨e, h0, _, h⟩ | ⟨e, _, _, _, h⟩ | ⟨e, h0, _, _, h⟩
  · right; rw [h]; simp [afterCompute, invocations]
  · left; exact ⟨e, h0, by rw [h]⟩
  · right; rw [h]; simp [afterCompute, afterRead, invocations]
  · left; exact ⟨e, h0, by rw [h]⟩

/-- The steps of a run record the calls that were run, in order. -/
theorem runCalls_calls (clk : Nat → Int) (calls : List (Call α ε σ)) (w : World α ε σ) :
    (runCalls clk calls w).map Step.call = calls := by
  induction calls generalizing w with
  | nil => rfl
  | cons c cs ih => simp [runCalls, ih]

/-- If every entry of the starting map is the pair of an invocation made by
one of the steps `done`, then every result of a run is the pair of an
invocation made for the same key by a step of `done` or of the run up to and
including the step that returns it. -/
theorem run_results_origin (clk : Nat → Int) (calls : List (Call α ε σ)) :
    ∀ (w : World α ε σ) (done : List (Step α ε σ)),
      (∀ k e, w.c.cache k = some e → ∃ s1 ∈ done, s1.call.key = k
        ∧ invocations s1.finish = invocations s1.start + 1
        ∧ (e.response, e.err) = (s1.call.operation s1.start.env).1) →
      ∀ (pre : List (Step α ε σ)) (s : Step α ε σ) (post : List (Step α ε σ)),
        runCalls clk calls w = pre ++ s :: post →
        ∃ s1 ∈ done ++ (pre ++ [s]), s1.call.key = s.call.key
          ∧ invocations s1.finish = invocations s1.start + 1
          ∧ s.result = some (s1.call.operation s1.start.env).1 := by
  induction calls with
  | nil =>
    intro w done _ pre s post h
    simp [runCalls] at h
  | cons c cs ih =>
    intro w done hinv pre s post h
    simp only [runCalls] at h
    cases pre with
    | nil =>
      simp only [List.nil_append, List.cons.injEq] at h
      obtain ⟨hs, -⟩ := h
      subst hs
      rcases Do_result_origin clk c.operation c.key c.expire w with ⟨e, h0, hr⟩ | ⟨hi, hr⟩
      · obtain ⟨s1, hs1, hk1, hi1, hp1⟩ := hinv c.key e h0
        exact ⟨s1, by simp [hs1], hk1, hi1, by rw [hr, hp1]⟩
      · exact ⟨_, by simp, rfl, hi, hr⟩
    | cons p pre1 =>
      simp only [List.cons_append, List.cons.injEq] at h
      obtain ⟨hp, hrest⟩ := h
      subst hp
      obtain ⟨s1, hs1, hrest1⟩ := ih (coalescer.Do clk c.operation c.key c.expire w).2
        (done ++ [⟨c, w, (coalescer.Do clk c.operation c.key c.expire w).1,
          (coalescer.Do clk c.operation c.key c.expire w).2⟩])
        (by
          intro k e hk
          rcases Do_entry_origin clk c.operation c.key c.expire w k e hk with
            h0 | ⟨hkey, hi, hpair⟩
          · obtain ⟨s1, hs1, hrest1⟩ := hinv k e h0
            exact ⟨s1, by simp [hs1], hrest1⟩
          · exact ⟨⟨c, w, (coalescer.Do clk c.operation c.key c.expire w).1,
              (coalescer.Do clk c.operation c.key c.expire w).2⟩, by simp, hkey.symm, hi, hpair⟩)
        pre1 s post hrest
      exact ⟨s1, by simpa [List.append_assoc] using hs1, hrest1⟩

/-- C12 (the cache never manufactures errors): in a run of `Do` calls from
`NewCoalescer`, the pair each call returns is the pair returned by an
operation invocation made for the same key by this call or an earlier one of
the run; so if every operation of the run always returns a nil error, every
call returns a nil error. -/
theorem results_come_from_operations (clk : Nat → Int) (calls : List (Call α ε σ))
    (reads : Nat) (env : σ) (pre : List (Step α ε σ)) (s : Step α ε σ)
    (post : List (Step α ε σ))
    (hsplit : runCalls clk calls (freshWorld reads env) = pre ++ s :: post) :
    (∃ s1 ∈ pre ++ [s], s1.call.key = s.call.key
      ∧ invocations s1.finish = invocations s1.start + 1
      ∧ s1.finish.env = (s1.call.operation s1.start.env).2
      ∧ s.result = some (s1.call.operation s1.start.env).1)
    ∧ ((∀ c ∈ calls, ∀ st, (c.operation st).1.2 = none) →
        ∃ v, s.result = some (v, none)) := by
  obtain ⟨s1, hs1, hk, hi, hr⟩ := run_results_origin clk calls (freshWorld reads env) []
    (by intro k e hke; simp [freshWorld, NewCoalescer] at hke) pre s post hsplit
  simp only [List.nil_append] at hs1
  have hmem : s1 ∈ runCalls clk calls (freshWorld reads env) := by
    rw [hsplit]
    rcases List.mem_append.mp hs1 with h | h
    · exact List.mem_append_left _ h
    · rw [List.mem_singleton.mp h]
      exact List.mem_append_right _ (List.mem_cons_self _ _)
  obtain ⟨-, hf⟩ := mem_runCalls clk calls _ s1 hmem
  have henv : s1.finish.env = (s1.call.operation s1.start.env).2 := by
    rw [hf] at hi ⊢
    rcases Do_cases clk s1.call.operation s1.call.key s1.call.expire s1.start with
      ⟨_, h⟩ | ⟨e, _, _, h⟩ | ⟨e, _, _, _, h⟩ | ⟨e, _, _, _, h⟩
    · rw [h]; rfl
    · rw [h] at hi; simp [afterRead, invocations] at hi
    · rw [h]; rfl
    · rw [h] at hi; simp [afterRead, invocations] at hi
  refine ⟨⟨s1, hs1, hk, hi, henv, hr⟩, ?_⟩
  intro hnil
  have hcall : s1.call ∈ calls := by
    have := List.mem_map_of_mem Step.call hmem
    rwa [runCalls_calls] at this
  refine ⟨(s1.call.operation s1.start.env).1.1, ?_⟩
  rw [hr, ← hnil s1.call hcall s1.start.env]

end Origin

/-! ## `Do` and the single-check version -/

section Refinement

variable {α ε σ : Type}

theorem singleCheckDo_absent (clk : Nat → Int) (operation : Operation α ε σ) (key : String)
    (expire : Int) (w : World α ε σ) (h : w.c.cache key = none) :
    singleCheckDo clk operation key expire w =
      (some (operation w.env).1, afterCompute clk operation key expire w) := by
  simp [singleCheckDo, invalidCachedValue, h, timeNow, afterCompute]

theorem singleCheckDo_hit (clk : Nat → Int) (operation : Operation α ε σ) (key : String)
    (expire : Int) (w : World α ε σ) (e : content α ε) (h : w.c.cache key = some e)
    (hv : clk w.reads - e.cached ≤ e.expire) :
    singleCheckDo clk operation key expire w = (some (e.response, e.err), afterRead w) := by
  simp [singleCheckDo, invalidCachedValue, h, timeSince, timeNow, afterRead, not_lt.mpr hv]

theorem singleCheckDo_stale (clk : Nat → Int) (operation : Operation α ε σ) (key : String)
    (expire : Int) (w : World α ε σ) (e : content α ε) (h : w.c.cache key = some e)
    (hs : clk w.reads - e.cached > e.expire) :
    singleCheckDo clk operation key expire w =
      (some (operation w.env).1, afterCompute clk operation key expire (afterRead w)) := by
  simp [singleCheckDo, invalidCachedValue, h, timeSince, timeNow, afterRead, afterCompute,
    gt_iff_lt.mp hs]

/-- C17, as the code has it (sequential refinement of the double check): under
a non-decreasing clock, whenever the first check of `Do` finds the entry
invalid the second check inside `set` finds it invalid too, and `Do` and the
single-check version return the same pair, invoke the operation the same
number of times, leave the same captured state, the same entries under every
other key, and under `key` an entry with the same response, err and expire.
The final maps are equal when the key was absent or its entry valid; when the
entry was stale each version stamps the new entry with its own clock reading
taken after the operation, which for `Do` is one reading later (the second
check has read the clock once more). The final map of `Do` equals that of the
single-check version run on the clock without the reading of the second
check. -/
theorem Do_refines_single_check (clk : Nat → Int) (hmono : Monotone clk)
    (operation : Operation α ε σ) (key : String) (ttl : Int) (w : World α ε σ) :
    (coalescer.Do clk operation key ttl w).1 = (singleCheckDo clk operation key ttl w).1
    ∧ invocations (coalescer.Do clk operation key ttl w).2
        = invocations (singleCheckDo clk operation key ttl w).2
    ∧ (coalescer.Do clk operation key ttl w).2.env
        = (singleCheckDo clk operation key ttl w).2.env
    ∧ (∀ k, k ≠ key → (coalescer.Do clk operation key ttl w).2.c.cache k
        = (singleCheckDo clk operation key ttl w).2.c.cache k)
    ∧ ((coalescer.Do clk operation key ttl w).2.c.cache key).map
          (fun e => (e.response, e.err, e.expire))
        = ((singleCheckDo clk operation key ttl w).2.c.cache key).map
          (fun e => (e.response, e.err, e.expire))
    ∧ ((w.c.cache key = none
          ∨ ∃ e, w.c.cache key = some e ∧ clk w.reads - e.cached ≤ e.expire) →
        (coalescer.Do clk operation key ttl w).2.c
          = (singleCheckDo clk operation key ttl w).2.c)
    ∧ ((invalidCachedValue clk (coalescer.get key w) w).1 = true →
        (invalidCachedValue clk
          ((invalidCachedValue clk (coalescer.get key w) w).2.c.cache key)
          (invalidCachedValue clk (coalescer.get key w) w).2).1 = true)
    ∧ (∀ e, w.c.cache key = some e → clk w.reads - e.cached > e.expire →
        ((coalescer.Do clk operation key ttl w).2.c.cache key).map content.cached
          = some (clk (w.reads + 2))
        ∧ ((singleCheckDo clk operation key ttl w).2.c.cache key).map content.cached
          = some (clk (w.reads + 1)))
    ∧ (coalescer.Do clk operation key ttl w).2.c
        = (singleCheckDo (dropReading clk (w.reads + 1)) operation key ttl w).2.c := by
  have hsecond : (invalidCachedValue clk (coalescer.get key w) w).1 = true →
      (invalidCachedValue clk
        ((invalidCachedValue clk (coalescer.get key w) w).2.c.cache key)
        (invalidCachedValue clk (coalescer.get key w) w).2).1 = true := by
    cases h : w.c.cache key with
    | none => simp [coalescer.get, invalidCachedValue, h]
    | some e =>
      simp only [coalescer.get, invalidCachedValue, h, timeSince, timeNow,
        decide_eq_true_eq]
      intro hs
      exact stale_next clk hmono _ _ _ hs
  cases h : w.c.cache key with
  | none =>
    rw [Do_absent clk operation key ttl w h, singleCheckDo_absent clk operation key ttl w h,
      singleCheckDo_absent (dropReading clk (w.reads + 1)) operation key ttl w h]
    exact ⟨rfl, rfl, rfl, fun _ _ => rfl, rfl, fun _ => rfl, hsecond,
      fun e he => by simp at he, by simp [afterCompute, dropReading]⟩
  | some e =>
    by_cases hv : clk w.reads - e.cached ≤ e.expire
    · rw [Do_hit clk operation key ttl w e h hv, singleCheckDo_hit clk operation key ttl w e h hv,
        singleCheckDo_hit (dropReading clk (w.reads + 1)) operation key ttl w e h
          (by simpa [dropReading] using hv)]
      exact ⟨rfl, rfl, rfl, fun _ _ => rfl, rfl, fun _ => rfl, hsecond,
        fun e1 he1 hs => by
          simp only [Option.some.injEq] at he1
          subst he1
          exact absurd hv (not_le.mpr hs), rfl⟩
    · have hs : clk w.reads - e.cached > e.expire := not_le.mp hv
      rw [Do_stale clk operation key ttl w e h hs (stale_next clk hmono _ _ _ hs),
        singleCheckDo_stale clk operation key ttl w e h hs,
        singleCheckDo_stale (dropReading clk (w.reads + 1)) operation key ttl w e h
          (by simpa [dropReading] using hs)]
      refine ⟨rfl, ?_, rfl, ?_, ?_, ?_, hsecond, ?_, ?_⟩
      · simp [afterCompute, afterRead, invocations]
      · intro k hk
        simp [afterCompute, afterRead, Function.update_noteq hk]
      · simp [afterCompute, afterRead]
      · rintro (h0 | ⟨e1, he1, hv1⟩)
        · simp at h0
        · simp only [Option.some.injEq] at he1
          subst he1
          exact absurd hv1 hv
      · intro e1 _ _
        simp [afterCompute, afterRead]
      · simp [afterCompute, afterRead, dropReading]

end Refinement

/-! ## Concrete executions: keys, origins, single check -/

section ConcreteMore

/-- A call for key "b" in a world holding a valid entry for key "a": the
operation runs, and the entry for "a" is untouched. -/
theorem independent_keys_witness :
    "b" ≠ "a"
    ∧ (coalescer.Do unitClock (counterOperation String) "b" 5 oneEntryWorld).2.c.cache "a"
      = some { response := 7, err := none, cached := 0, expire := 5 }
    ∧ (coalescer.Do unitClock (counterOperation String) "b" 5 oneEntryWorld).1
      = some (1, none) :=
  have h := independent_keys unitClock (counterOperation String) "b" "a" 5 oneEntryWorld
    (by decide)
  ⟨by decide, h.1, (h.2.2.1 rfl).1⟩

/-- Two calls with the counter operation, which never fails: the second call
returns a nil error. -/
theorem results_come_from_operations_witness :
    ∃ v, (coalescer.Do unitClock (counterOperation String) "k" 3
        (coalescer.Do unitClock (counterOperation String) "k" 5 (freshWorld 0 0)).2).1
      = some (v, none) :=
  (results_come_from_operations unitClock (counterCalls String "k" [5, 3]) 0 0
    [{ call := { operation := counterOperation String, key := "k", expire := 5 },
       start := freshWorld 0 0,
       result := (coalescer.Do unitClock (counterOperation String) "k" 5 (freshWorld 0 0)).1,
       finish := (coalescer.Do unitClock (counterOperation String) "k" 5 (freshWorld 0 0)).2 }]
    { call := { operation := counterOperation String, key := "k", expire := 3 },
      start := (coalescer.Do unitClock (counterOperation String) "k" 5 (freshWorld 0 0)).2,
      result := (coalescer.Do unitClock (counterOperation String) "k" 3
        (coalescer.Do unitClock (counterOperation String) "k" 5 (freshWorld 0 0)).2).1,
      finish := (coalescer.Do unitClock (counterOperation String) "k" 3
        (coalescer.Do unitClock (counterOperation String) "k" 5 (freshWorld 0 0)).2).2 }
    [] rfl).2
    (by
      intro c hc st
      simp only [counterCalls, List.map, List.mem_cons, List.mem_nil_iff, or_false] at hc
      rcases hc with rfl | rfl <;> rfl)

/-- The second check finds the entry of key "a" valid at reading 1: `set`
returns it and invokes nothing. -/
theorem set_returns_valid_entry_witness :
    unitClock oneEntryWorld.reads - 0 ≤ 5
    ∧ (coalescer.set unitClock (counterOperation String) "a" 9 oneEntryWorld).1
      = some { response := 7, err := none, cached := 0, expire := 5 }
    ∧ invocations (coalescer.set unitClock (counterOperation String) "a" 9 oneEntryWorld).2
      = 0 :=
  have h := set_returns_valid_entry unitClock (counterOperation String) "a" 9 oneEntryWorld
    { response := 7, err := none, cached := 0, expire := 5 } rfl (by decide)
  ⟨by decide, h.1, h.2.2.2.2⟩

/-- C17 fails on the timestamp: on a clock that advances by one per reading,
after a call with ttl 0 on a fresh coalescer (entry stamped 0), a call with
ttl 5 finds the entry stale at reading 1. `Do` checks again at reading 2, runs
the operation and stamps the new entry with reading 3; the single-check
version runs the operation right away and stamps it with reading 2. Both
return `(2, nil)`, the final maps differ. -/
theorem single_check_stamps_one_reading_earlier :
    Monotone unitClock
    ∧ (coalescer.Do unitClock (counterOperation String) "k" 5
        (coalescer.Do unitClock (counterOperation String) "k" 0 (freshWorld 0 0)).2).2.c.cache "k"
      = some { response := 2, err := none, cached := 3, expire := 5 }
    ∧ (singleCheckDo unitClock (counterOperation String) "k" 5
        (coalescer.Do unitClock (counterOperation String) "k" 0 (freshWorld 0 0)).2).2.c.cache "k"
      = some { response := 2, err := none, cached := 2, expire := 5 }
    ∧ (coalescer.Do unitClock (counterOperation String) "k" 5
        (coalescer.Do unitClock (counterOperation String) "k" 0 (freshWorld 0 0)).2).2.c
      ≠ (singleCheckDo unitClock (counterOperation String) "k" 5
        (coalescer.Do unitClock (counterOperation String) "k" 0 (freshWorld 0 0)).2).2.c :=
  ⟨unitClock_mono, rfl, rfl, fun h => by
    have h1 := congrArg (fun c => (c.cache "k").map content.cached) h
    have h2 : (some (3 : Int)) = some 2 := h1
    simp at h2⟩

/-- The same two calls: `Do` and the single-check version return the same
pair and invoke the operation the same number of times. -/
theorem Do_refines_single_check_witness :
    Monotone unitClock
    ∧ (coalescer.Do unitClock (counterOperation String) "k" 5
        (coalescer.Do unitClock (counterOperation String) "k" 0 (freshWorld 0 0)).2).1
      = (singleCheckDo unitClock (counterOperation String) "k" 5
        (coalescer.Do unitClock (counterOperation String) "k" 0 (freshWorld 0 0)).2).1
    ∧ invocations (coalescer.Do unitClock (counterOperation String) "k" 5
        (coalescer.Do unitClock (counterOperation String) "k" 0 (freshWorld 0 0)).2).2
      = invocations (singleCheckDo unitClock (counterOperation String) "k" 5
        (coalescer.Do unitClock (counterOperation String) "k" 0 (freshWorld 0 0)).2).2 :=
  have h := Do_refines_single_check unitClock unitClock_mono (counterOperation String) "k" 5
    (coalescer.Do unitClock (counterOperation String) "k" 0 (freshWorld 0 0)).2
  ⟨unitClock_mono, h.1, h.2.1⟩

end ConcreteMore

end Coalescence
